import Mathlib

/-!
Shallow embedding of the resource-librarian core of
`akshatladdha16/personal-assistant-agent`:

* `src/utils/resource_models.py` — record normalizer,
* `src/core/embeddings.py` — embedding gateway,
* `src/tools/supabase_client.py` — keyword expander, error summarisation,
  hybrid search (`fetch_resources`) and upsert (`add_resource`).

Modelling conventions:

* Python strings are `String`; `str.strip()` is modelled by `pyStrip`
  (dropping the characters Python's default `strip` drops) and `str.lower()`
  by `pyLower` (ASCII case mapping).
* Optional values (`None`) are `Option`; Python truthiness of an optional
  string (`if x:`) is `optStrTruthy` (false for `None` and `""`).
* Machine floats never enter any computation here (only vector lengths and
  pass-through equality matter), so embedding-vector entries are modelled
  by `Rat`.
* Exceptions are modelled by `Except`: the embedding provider and the
  semantic-search store call may return `.error`; functions that catch all
  exceptions in the source are total functions here.
* The Supabase store is modelled as an in-memory list of rows plus a write
  log (`Store`); remote outcomes that are inputs to the logic under test
  (semantic/keyword search results) are passed as explicit arguments.
-/

namespace Assistant

/-! ### Python string primitives -/

/-- The characters removed by Python's default `str.strip()`. -/
def isPyWs (c : Char) : Bool :=
  c = ' ' || c = '\t' || c = '\n' || c = '\r' || c = '\x0b' || c = '\x0c'

/-- Strip leading and trailing whitespace from a character list. -/
def stripChars (l : List Char) : List Char :=
  ((l.dropWhile isPyWs).reverse.dropWhile isPyWs).reverse

/-- Model of Python `str.strip()`. -/
def pyStrip (s : String) : String :=
  ⟨stripChars s.data⟩

/-- Model of Python truthiness of an `Optional[str]` (`if x:`). -/
def optStrTruthy : Option String → Bool
  | none => false
  | some s => s ≠ ""

/-- `needle` is a prefix of `hay` (character lists). -/
def charsPre : List Char → List Char → Bool
  | [], _ => true
  | _ :: _, [] => false
  | a :: as, b :: bs => a = b && charsPre as bs

/-- `needle` occurs somewhere inside `hay` (character lists). -/
def charsSub (needle : List Char) : List Char → Bool
  | [] => needle.isEmpty
  | c :: rest => charsPre needle (c :: rest) || charsSub needle rest

/-- Model of Python's substring test `needle in hay`. -/
def containsSub (hay needle : String) : Bool :=
  charsSub needle.data hay.data

/-- Model of Python `str.lower()` (ASCII case mapping). -/
def pyLower (s : String) : String :=
  ⟨s.data.map Char.toLower⟩

/-- `s` ends with `suffix` (model of Python `str.endswith`). -/
def strEndsWith (s suffix : String) : Bool :=
  charsPre suffix.data.reverse s.data.reverse

/-- Replace the non-overlapping occurrences of `old` in the list, left to
right (empty `old` matches nothing here; the source never replaces an empty
pattern). The first `Nat` argument counts characters of an already-matched
occurrence that remain to be skipped; the recursion is structural on the
list so that the kernel can evaluate it. -/
def replaceChars (old new : List Char) : Nat → List Char → List Char
  | _, [] => []
  | skip + 1, _ :: rest => replaceChars old new skip rest
  | 0, c :: rest =>
    if charsPre old (c :: rest) && !old.isEmpty then
      new ++ replaceChars old new (old.length - 1) rest
    else c :: replaceChars old new 0 rest

/-- Model of Python `str.replace(old, new)`. -/
def strReplace (s old new : String) : String :=
  ⟨replaceChars old.data new.data 0 s.data⟩

/-! ### Record normalizer (`src/utils/resource_models.py`) -/

/-- A persisted `created_at` cell: a native timestamp or an ISO-8601 string.
Timestamps are abstracted to `Nat` ticks. -/
inductive CreatedVal
  | dt (t : Nat)
  | iso (s : String)
  deriving DecidableEq, Repr

/-- A persisted `tags`/`categories` cell: a single scalar string or a list. -/
inductive ScalarOrList
  | scalar (s : String)
  | strs (l : List String)
  deriving DecidableEq, Repr

/-- A loosely-typed persisted row (`dict` from the store); `none` models a
missing key. -/
structure Row where
  id : Option Nat := none
  title : Option String := none
  url : Option String := none
  notes : Option String := none
  tags : Option ScalarOrList := none
  categories : Option ScalarOrList := none
  created_at : Option CreatedVal := none
  embeddings_vector : Option (List Rat) := none
  deriving DecidableEq, Repr

/-- `ResourceRecord` from `resource_models.py`. -/
structure ResourceRecord where
  id : Option Nat
  title : String
  url : Option String
  notes : Option String
  tags : List String
  categories : List String
  created_at : Nat
  deriving DecidableEq, Repr

/-- `ResourceInput` from `resource_models.py`. -/
structure ResourceInput where
  title : String
  url : Option String := none
  notes : Option String := none
  tags : Option (List String) := none
  categories : Option (List String) := none
  deriving DecidableEq, Repr

/-- `normalise_string_list` (`resource_models.py:34`): trim every element,
drop the ones that are empty after trimming; `None` (and the falsy empty
list) yield `[]`. -/
def normalise_string_list (values : Option (List String)) : List String :=
  match values with
  | none => []
  | some vs =>
    vs.foldl
      (fun normalised value =>
        let text := pyStrip value
        if text = "" then normalised else normalised ++ [text])
      []

/-- `_parse_datetime` (`resource_models.py:57`): pass native timestamps
through, parse ISO strings after replacing a trailing `Z` (`fromiso` models
`datetime.fromisoformat`, `none` modelling `ValueError`), otherwise fall
back to the current time `now`. -/
def _parse_datetime (now : Nat) (fromiso : String → Option Nat) :
    Option CreatedVal → Nat
  | some (.dt t) => t
  | some (.iso s) => (fromiso (strReplace s "Z" "+00:00")).getD now
  | none => now

/-- `_coerce_single_to_list` (`resource_models.py:68`). -/
def _coerce_single_to_list : Option ScalarOrList → List String
  | none => []
  | some (.strs l) =>
    l.filterMap (fun item =>
      let t := pyStrip item
      if t = "" then none else some t)
  | some (.scalar s) =>
    let text := pyStrip s
    if text = "" then [] else [text]

/-- `row_to_record` (`resource_models.py:45`); `now` and `fromiso` model the
ambient `datetime.now()` / `datetime.fromisoformat` used by
`_parse_datetime`. -/
def row_to_record (now : Nat) (fromiso : String → Option Nat) (row : Row) :
    ResourceRecord where
  id := row.id
  title := row.title.getD "Untitled"
  url := row.url
  notes := row.notes
  tags := _coerce_single_to_list row.tags
  categories := _coerce_single_to_list row.categories
  created_at := _parse_datetime now fromiso row.created_at

/-! ### Embedding gateway (`src/core/embeddings.py`) -/

/-- The embedding configuration visible to the gateway: the provider service
selected once by `get_embedding_service` (`none` when the provider is
disabled, unsupported, or failed to initialise) whose call may raise
(`Except.error`), and `settings.embedding_dimensions`. -/
structure EmbedConfig where
  provider : Option (String → Except String (List Rat))
  dims : Nat

/-- `embed_text` (`embeddings.py:82`): `none` for whitespace-only text, for a
missing provider, and for any provider exception; otherwise the provider's
vector. Total: no exception escapes. -/
def embed_text (cfg : EmbedConfig) (text : String) : Option (List Rat) :=
  if pyStrip text = "" then none
  else
    match cfg.provider with
    | none => none
    | some service =>
      match service text with
      | .ok v => some v
      | .error _ => none

/-- `_generate_embedding` (`supabase_client.py:43`), the storage-side wrapper
(`generate_embedding_for_storage` of the spec): rejects vectors whose length
differs from the configured (truthy, i.e. nonzero) dimensionality. -/
def _generate_embedding (cfg : EmbedConfig) (text : String) :
    Option (List Rat) :=
  match embed_text cfg text with
  | none => none
  | some vector =>
    if cfg.dims ≠ 0 ∧ vector.length ≠ cfg.dims then none else some vector

/-! ### Keyword expander (`supabase_client.py:95`) -/

/-- The body of the local `add` closure in `_expand_keywords`: state is
`(seen, ordered)` (the Python `set` is modelled as a list with membership).
`none` models `add(None)`. -/
def expandAdd (st : List String × List String) (term : Option String) :
    List String × List String :=
  match term with
  | none => st
  | some t =>
    let value := pyLower (pyStrip t)
    if value = "" then st
    else if value ∈ st.1 then st
    else (value :: st.1, st.2 ++ [value])

/-- One iteration of the `for raw in keywords` loop of `_expand_keywords`. -/
def expandStep (st : List String × List String) (raw : String) :
    List String × List String :=
  let st1 := expandAdd st (some raw)
  let lowered := pyLower (pyStrip raw)
  let st2 :=
    if lowered.length > 3 then
      let a := if strEndsWith lowered "ies"
        then expandAdd st1 (some (lowered.dropRight 3 ++ "y")) else st1
      let b := if strEndsWith lowered "es"
        then expandAdd a (some (lowered.dropRight 2)) else a
      if strEndsWith lowered "s"
        then expandAdd b (some (lowered.dropRight 1)) else b
    else st1
  if containsSub lowered "-"
    then expandAdd st2 (some (strReplace lowered "-" " ")) else st2

/-- `_expand_keywords` (`supabase_client.py:95`). -/
def _expand_keywords (keywords : List String) (query : Option String) :
    List String :=
  (expandAdd (keywords.foldl expandStep ([], [])) query).2

/-! ### Semantic-error summarisation (`supabase_client.py:60`) -/

/-- A Python exception as far as `_extract_error_message` can observe it:
the truthy `message`/`code`/`hint` attribute values collected when the
exception is a postgrest `APIError` (empty otherwise), its `str()` form, and
its class name. -/
structure PyErr where
  apiDetails : List String := []
  strForm : String := ""
  clsName : String := "Exception"
  deriving DecidableEq, Repr

/-- Model of `re.sub(r"\s+", " ", raw)`: replace each maximal whitespace run
by a single space. The flag records whether the previous character was part
of a run. -/
def collapseWsAux : Bool → List Char → List Char
  | _, [] => []
  | prevWs, c :: rest =>
    if isPyWs c then
      if prevWs then collapseWsAux true rest
      else ' ' :: collapseWsAux true rest
    else c :: collapseWsAux false rest

/-- Collapse whitespace runs in a string (`re.sub(r"\s+", " ", ·)`). -/
def collapseWs (s : String) : String :=
  ⟨collapseWsAux false s.data⟩

/-- `_extract_error_message` (`supabase_client.py:76`). -/
def _extract_error_message (e : PyErr) : String :=
  let raw :=
    if e.apiDetails ≠ [] then String.intercalate " - " e.apiDetails
    else pyStrip e.strForm
  let raw := if raw = "" then e.clsName else raw
  let cleaned := collapseWs raw
  if cleaned.length > 200 then cleaned.take 199 ++ "…" else cleaned

/-- `_summarise_semantic_error` (`supabase_client.py:60`). -/
def _summarise_semantic_error (e : PyErr) : String :=
  let reason := _extract_error_message e
  let reasonLower := pyLower reason
  if containsSub reasonLower "ssl handshake" || containsSub reasonLower "code 525" then
    "Semantic search is temporarily unavailable because Supabase reported an SSL handshake error. Showing keyword matches only."
  else if reason ≠ "" then
    "Semantic search unavailable (" ++ reason ++ "). Showing keyword matches only."
  else
    "Semantic search is unavailable right now. Showing keyword matches only."

/-! ### Hybrid search engine (`supabase_client.py:270`, `fetch_resources`)

The `combined` Python `dict` (insertion-ordered, keyed by `record.id`) is
modelled as an association list with distinct keys; overwriting an existing
key keeps its position, a new key is appended. The outcomes of the two
store calls are passed in: `semanticOutcome` is what
`self._semantic_search(...)` did (`.error` models a raised exception, `.ok`
its returned records — `[]` when no embedding was produced), and
`keywordResults` is what `self._keyword_search(...)` returned. -/

/-- The insertion-ordered dictionary `combined`. -/
abbrev RecDict := List (Option Nat × ResourceRecord)

/-- The keys of the dictionary. -/
def dictKeys (d : RecDict) : List (Option Nat) :=
  d.map Prod.fst

/-- `combined[k] = v` on a Python dict: replace in place or append. -/
def dictInsert (d : RecDict) (k : Option Nat) (v : ResourceRecord) : RecDict :=
  if k ∈ dictKeys d then d.map (fun p => if p.1 = k then (k, v) else p)
  else d ++ [(k, v)]

/-- The `for record in semantic_results` loop: insert each record, returning
early (flag `true`) as soon as `limit` distinct identities are present. -/
def semLoop (limit : Nat) (acc : RecDict) :
    List ResourceRecord → RecDict × Bool
  | [] => (acc, false)
  | r :: rs =>
    let acc2 := dictInsert acc r.id r
    if limit ≤ acc2.length then (acc2, true) else semLoop limit acc2 rs

/-- The `for record in keyword_results` loop: insert records whose identity
is not yet present, stopping once `limit` distinct identities are
accumulated. -/
def kwLoop (limit : Nat) (acc : RecDict) :
    List ResourceRecord → RecDict
  | [] => acc
  | r :: rs =>
    let acc2 := if r.id ∈ dictKeys acc then acc else acc ++ [(r.id, r)]
    if limit ≤ acc2.length then acc2 else kwLoop limit acc2 rs

/-- `fetch_resources` (`supabase_client.py:270`) given the outcomes of the
store calls. -/
def fetch_resources (query : Option String)
    (semanticOutcome : Except PyErr (List ResourceRecord))
    (keywordResults : List ResourceRecord) (limit : Nat) :
    List ResourceRecord × List String :=
  match query with
  | none => ((kwLoop limit [] keywordResults).map Prod.snd, [])
  | some q =>
    if q = "" then ((kwLoop limit [] keywordResults).map Prod.snd, [])
    else
      match semanticOutcome with
      | .ok semantic_results =>
        let phase := semLoop limit [] semantic_results
        if phase.2 then (phase.1.map Prod.snd, [])
        else ((kwLoop limit phase.1 keywordResults).map Prod.snd, [])
      | .error exc =>
        ((kwLoop limit [] keywordResults).map Prod.snd,
         [_summarise_semantic_error exc])

/-! ### Upsert engine (`supabase_client.py:176`, `add_resource`)

The store is a list of rows plus a write log; `insert` echoes the inserted
row (with fresh `id` and the current tick as `created_at`) and
`update(...).eq("id", iden)` applies the partial update to every row with
that identity and echoes the updated row. -/

/-- A value appearing in the `update_fields` / `record_dict` dictionaries. -/
inductive FieldVal
  | str (v : String)
  | vec (v : List Rat)
  deriving DecidableEq, Repr

/-- A write issued against the store. -/
inductive WriteOp
  | insertRow (row : Row)
  | updateRow (iden : Option Nat) (fields : List (String × FieldVal))
  deriving DecidableEq, Repr

/-- The modelled Supabase table: rows, a fresh-id counter, the clock used
for `created_at`, and the log of issued writes. -/
structure Store where
  rows : List Row
  nextId : Nat
  time : Nat
  log : List WriteOp
  deriving DecidableEq, Repr

/-- The update writes contained in a log fragment. -/
def updateWrites (l : List WriteOp) : List WriteOp :=
  l.filter fun op => match op with
    | .updateRow _ _ => true
    | .insertRow _ => false

/-- `ORDER BY created_at DESC LIMIT 1` of the store model: the first row
carrying the greatest `created_at` (non-native timestamps sort as tick 0). -/
def mostRecentRow (rows : List Row) : Option Row :=
  rows.foldl
    (fun acc r =>
      match acc with
      | none => some r
      | some b => if rowTick b < rowTick r then some r else acc)
    none
where
  rowTick (r : Row) : Nat :=
    match r.created_at with
    | some (.dt t) => t
    | _ => 0

/-- `_find_existing_row` (`supabase_client.py:142`): look up by exact `url`
(most recent first), else by exact `title`. -/
def _find_existing_row (p : ResourceInput) (rows : List Row) : Option Row :=
  let byTitle : Option Row :=
    if p.title = "" then none
    else mostRecentRow (rows.filter (fun r => r.title = some p.title))
  match p.url with
  | some u =>
    if u = "" then byTitle
    else
      match mostRecentRow (rows.filter (fun r => r.url = some u)) with
      | some row => some row
      | none => byTitle
  | none => byTitle

/-- `_compose_embedding_text` (`supabase_client.py:30`). -/
def _compose_embedding_text (title : String) (notes url : Option String) :
    Option String :=
  let parts := [pyStrip title]
    ++ (match notes with
        | some n => if n = "" then [] else [pyStrip n]
        | none => [])
    ++ (match url with
        | some u => if u = "" then [] else [pyStrip u]
        | none => [])
  let combined :=
    String.intercalate "\n" (parts.filter (fun segment => segment ≠ ""))
  if combined = "" then none else some combined

/-- The `update_fields` dictionary built in `add_resource`
(`supabase_client.py:201`): only the fields actually supplied by the
payload, plus a freshly computed embedding when there is one. -/
def buildUpdateFields (p : ResourceInput)
    (normalised_tags normalised_categories : List String)
    (vec : Option (List Rat)) : List (String × FieldVal) :=
  (match p.url with
   | some u => if u = "" then [] else [("url", FieldVal.str u)]
   | none => [])
  ++ (match p.notes with
      | some n => if n = "" then [] else [("notes", FieldVal.str n)]
      | none => [])
  ++ (match normalised_tags with
      | t :: _ => [("tags", FieldVal.str t)]
      | [] => [])
  ++ (match normalised_categories with
      | c :: _ => [("categories", FieldVal.str c)]
      | [] => [])
  ++ (match vec with
      | some v => [("embeddings_vector", FieldVal.vec v)]
      | none => [])

/-- Write one dictionary entry into a row (the columns of the modelled
table; a key/value pair that addresses no column is ignored). -/
def setField (r : Row) (k : String) (v : FieldVal) : Row :=
  if k = "url" then
    match v with | .str u => { r with url := some u } | _ => r
  else if k = "notes" then
    match v with | .str n => { r with notes := some n } | _ => r
  else if k = "tags" then
    match v with | .str t => { r with tags := some (.scalar t) } | _ => r
  else if k = "categories" then
    match v with | .str c => { r with categories := some (.scalar c) } | _ => r
  else if k = "embeddings_vector" then
    match v with | .vec e => { r with embeddings_vector := some e } | _ => r
  else if k = "title" then
    match v with | .str t => { r with title := some t } | _ => r
  else r

/-- Apply a partial-update dictionary to a row. -/
def applyUpdate (r : Row) (fields : List (String × FieldVal)) : Row :=
  fields.foldl (fun row kv => setField row kv.1 kv.2) r

/-- `if embedding_text: embedding_vector = _generate_embedding(embedding_text)`
(`supabase_client.py:198`; `_compose_embedding_text` never yields an empty
string, so truthiness is `Option` matching). -/
def embeddingFor (cfg : EmbedConfig) : Option String → Option (List Rat)
  | some t => _generate_embedding cfg t
  | none => none

/-- The `record_dict` row built on the insert path of `add_resource`
(`supabase_client.py:227`), as echoed by the store: the store model assigns
the fresh id and the current tick as `created_at`. -/
def newRowFor (p : ResourceInput)
    (normalised_tags normalised_categories : List String)
    (vec : Option (List Rat)) (s : Store) : Row where
  id := some s.nextId
  title := some p.title
  url := p.url
  notes := p.notes
  tags := (normalised_tags.head?).map ScalarOrList.scalar
  categories := (normalised_categories.head?).map ScalarOrList.scalar
  created_at := some (.dt s.time)
  embeddings_vector := vec

/-- `add_resource` (`supabase_client.py:176`). `fromiso` is threaded to
`row_to_record`; the store model always echoes the written row, so the
re-query/synthesis fallbacks of the insert path (`supabase_client.py:245`)
are not taken. -/
def add_resource (cfg : EmbedConfig) (fromiso : String → Option Nat)
    (p : ResourceInput) (s : Store) : ResourceRecord × Store :=
  let normalised_tags := normalise_string_list p.tags
  let normalised_categories := normalise_string_list p.categories
  let existing_row := _find_existing_row p s.rows
  let composed := _compose_embedding_text p.title p.notes p.url
  let embedding_text : Option String :=
    match existing_row with
    | some row =>
      let current_text :=
        _compose_embedding_text (row.title.getD "") row.notes row.url
      if current_text = composed then none else composed
    | none => composed
  let embedding_vector := embeddingFor cfg embedding_text
  let update_fields :=
    buildUpdateFields p normalised_tags normalised_categories embedding_vector
  match existing_row with
  | some row =>
    if update_fields = [] then (row_to_record s.time fromiso row, s)
    else
      let updated := applyUpdate row update_fields
      (row_to_record s.time fromiso updated,
       { rows := s.rows.map
           (fun r => if r.id = row.id then applyUpdate r update_fields else r)
         nextId := s.nextId
         time := s.time + 1
         log := s.log ++ [.updateRow row.id update_fields] })
  | none =>
    let newRow := newRowFor p normalised_tags normalised_categories
      embedding_vector s
    (row_to_record s.time fromiso newRow,
     { rows := s.rows ++ [newRow]
       nextId := s.nextId + 1
       time := s.time + 1
       log := s.log ++ [.insertRow newRow] })

/-! ### Helper lemmas about the string primitives -/

theorem dropWhile_self_idem (p : α → Bool) :
    ∀ l : List α, (l.dropWhile p).dropWhile p = l.dropWhile p := by
  intro l
  induction l with
  | nil => rfl
  | cons c t ih =>
    by_cases h : p c
    · simp [List.dropWhile_cons, h, ih]
    · simp [List.dropWhile_cons, h]

theorem dropWhile_eq_self_of_prefix (p : α → Bool) {k m : List α}
    (hk : k <+: m) (hm : m.dropWhile p = m) : k.dropWhile p = k := by
  cases k with
  | nil => rfl
  | cons a k2 =>
    obtain ⟨t, rfl⟩ := hk
    rw [List.cons_append] at hm
    by_cases h : p a
    · exfalso
      rw [List.dropWhile_cons_of_pos h] at hm
      have hle := (List.dropWhile_sublist (l := k2 ++ t) p).length_le
      rw [hm] at hle
      simp at hle
    · rw [List.dropWhile_cons_of_neg h]

theorem stripChars_idem (l : List Char) :
    stripChars (stripChars l) = stripChars l := by
  unfold stripChars
  set X := l.dropWhile isPyWs with hX
  have hXfix : X.dropWhile isPyWs = X := dropWhile_self_idem isPyWs l
  set Y := X.reverse.dropWhile isPyWs with hY
  have hYfix : Y.dropWhile isPyWs = Y := by
    rw [hY]; exact dropWhile_self_idem isPyWs X.reverse
  have hpre : Y.reverse <+: X := by
    have hsuf : Y <:+ X.reverse := List.dropWhile_suffix isPyWs
    have := List.reverse_prefix.mpr (by simpa using hsuf)
    simpa using this
  have h1 : Y.reverse.dropWhile isPyWs = Y.reverse :=
    dropWhile_eq_self_of_prefix isPyWs hpre hXfix
  rw [h1, List.reverse_reverse, hYfix]

theorem pyStrip_idem (s : String) : pyStrip (pyStrip s) = pyStrip s := by
  unfold pyStrip
  exact congrArg String.mk (stripChars_idem s.data)

/-! ### C8 — `normalise_string_list` -/

theorem normalise_foldl (vs : List String) (acc : List String) :
    vs.foldl
      (fun normalised value =>
        let text := pyStrip value
        if text = "" then normalised else normalised ++ [text])
      acc
      = acc ++ (vs.map pyStrip).filter (fun t => t ≠ "") := by
  induction vs generalizing acc with
  | nil => simp
  | cons v t ih =>
    by_cases h : pyStrip v = ""
    · simp [List.foldl_cons, h, ih]
    · simp [List.foldl_cons, h, ih]

/-- **C8**: `normalise_string_list` trims every element, drops the elements
that are empty after trimming, preserves the order of the rest (it is the
trim-then-filter pipeline), and maps `none` to `[]`. It is a plain function
of its input (purity). -/
theorem normalise_string_list_spec (values : Option (List String)) :
    normalise_string_list values
      = ((values.getD []).map pyStrip).filter (fun t => t ≠ "") := by
  cases values with
  | none => rfl
  | some vs =>
    simpa using normalise_foldl vs []

/-! ### C4 / C9 — the record normalizer's invariants -/

theorem coerce_no_blank (v : Option ScalarOrList) :
    ∀ t ∈ _coerce_single_to_list v, pyStrip t ≠ "" := by
  intro t ht
  cases v with
  | none => simp [_coerce_single_to_list] at ht
  | some sl =>
    cases sl with
    | scalar s =>
      by_cases h : pyStrip s = ""
      · simp [_coerce_single_to_list, h] at ht
      · simp [_coerce_single_to_list, h] at ht
        subst ht
        rw [pyStrip_idem]
        exact h
    | strs l =>
      simp only [_coerce_single_to_list, List.mem_filterMap] at ht
      obtain ⟨x, _, hx⟩ := ht
      by_cases h : pyStrip x = ""
      · simp [h] at hx
      · simp [h] at hx
        subst hx
        rw [pyStrip_idem]
        exact h

/-- **C4 counterexample**: the claim "every record produced by
`row_to_record` has a non-empty title" fails on a persisted row whose
`title` cell holds the empty string — `row.get("title", "Untitled")`
substitutes the sentinel only when the key is missing. -/
theorem row_to_record_empty_title :
    (row_to_record 0 (fun _ => none) ({ title := some "" } : Row)).title
      = "" := by
  rfl

/-- **C4 (amended)**: whenever the persisted row's `title` cell, if present,
is non-empty (a missing cell yields the sentinel `"Untitled"`), the produced
record has a non-empty title; and, unconditionally, `tags` and `categories`
contain no empty or whitespace-only entries. -/
theorem row_to_record_invariants (now : Nat) (fromiso : String → Option Nat)
    (row : Row) (htitle : ∀ s, row.title = some s → s ≠ "") :
    (row_to_record now fromiso row).title ≠ ""
      ∧ (∀ t ∈ (row_to_record now fromiso row).tags, pyStrip t ≠ "")
      ∧ (∀ c ∈ (row_to_record now fromiso row).categories, pyStrip c ≠ "") := by
  refine ⟨?_, coerce_no_blank row.tags, coerce_no_blank row.categories⟩
  cases h : row.title with
  | none => simp [row_to_record, h]
  | some s =>
    simp only [row_to_record, h, Option.getD_some]
    exact htitle s h

/-- Witness for C4: the amended theorem applied to a concrete row with a
present non-empty title and a blank-laden tags cell. -/
theorem row_to_record_invariants_witness :
    (row_to_record 7 (fun _ => none)
        ({ title := some "hello", tags := some (.strs [" a ", "  "]) } : Row)).title ≠ ""
      ∧ (∀ t ∈ (row_to_record 7 (fun _ => none)
          ({ title := some "hello", tags := some (.strs [" a ", "  "]) } : Row)).tags,
          pyStrip t ≠ "") := by
  have h := row_to_record_invariants 7 (fun _ => none)
    ({ title := some "hello", tags := some (.strs [" a ", "  "]) } : Row)
    (by intro s hs; cases hs; decide)
  exact ⟨h.1, h.2.1⟩

theorem filterMap_eq_self_of_some {l : List α} {f : α → Option α}
    (h : ∀ x ∈ l, f x = some x) : l.filterMap f = l := by
  induction l with
  | nil => rfl
  | cons a t ih =>
    rw [List.filterMap_cons, h a (by simp)]
    rw [ih (fun x hx => h x (by simp [hx]))]

/-- **C9 counterexample**: a sequence-valued `tags` cell is *not* passed
through unchanged — elements are stripped (and blank ones dropped):
`[" a "]` becomes `["a"]`. -/
theorem coerce_list_not_unchanged :
    (row_to_record 0 (fun _ => none)
        ({ tags := some (.strs [" a "]) } : Row)).tags = ["a"]
      ∧ (["a"] : List String) ≠ [" a "] := by
  exact ⟨by rfl, by decide⟩

/-- **C9 (amended)**: `row_to_record` wraps a scalar `tags`/`categories`
cell in a single-element sequence holding its stripped value (when non-blank),
and passes a sequence-valued cell through unchanged provided every element
is already trimmed and non-empty — in particular `"solo"` yields `["solo"]`
and `["a","b"]` stays `["a","b"]`. In general a sequence is stripped
element-wise with blank elements dropped. -/
theorem row_to_record_coercion (now : Nat) (fromiso : String → Option Nat)
    (row : Row) (s : String) (l : List String) :
    (row.tags = some (.scalar s) → pyStrip s ≠ "" →
        (row_to_record now fromiso row).tags = [pyStrip s])
      ∧ (row.tags = some (.strs l) → (∀ x ∈ l, pyStrip x = x ∧ x ≠ "") →
          (row_to_record now fromiso row).tags = l)
      ∧ (row.categories = some (.scalar s) → pyStrip s ≠ "" →
          (row_to_record now fromiso row).categories = [pyStrip s])
      ∧ (row.categories = some (.strs l) → (∀ x ∈ l, pyStrip x = x ∧ x ≠ "") →
          (row_to_record now fromiso row).categories = l) := by
  have hscalar : ∀ (v : Option ScalarOrList), v = some (.scalar s) →
      pyStrip s ≠ "" → _coerce_single_to_list v = [pyStrip s] := by
    intro v hv hs
    subst hv
    simp [_coerce_single_to_list, hs]
  have hlist : ∀ (v : Option ScalarOrList), v = some (.strs l) →
      (∀ x ∈ l, pyStrip x = x ∧ x ≠ "") → _coerce_single_to_list v = l := by
    intro v hv hx
    subst hv
    simp only [_coerce_single_to_list]
    refine filterMap_eq_self_of_some ?_
    intro x hmem
    obtain ⟨h1, h2⟩ := hx x hmem
    simp [h1, h2]
  exact ⟨fun h => hscalar row.tags (by rw [h]),
         fun h => hlist row.tags (by rw [h]),
         fun h => hscalar row.categories (by rw [h]),
         fun h => hlist row.categories (by rw [h])⟩

/-- Witness for C9: the amended theorem applied to the spec's two examples,
scalar `"solo"` and list `["a", "b"]`. -/
theorem row_to_record_coercion_witness :
    (row_to_record 0 (fun _ => none)
        ({ tags := some (.scalar "solo"),
           categories := some (.strs ["a", "b"]) } : Row)).tags = ["solo"]
      ∧ (row_to_record 0 (fun _ => none)
          ({ tags := some (.scalar "solo"),
             categories := some (.strs ["a", "b"]) } : Row)).categories
          = ["a", "b"] := by
  have h := row_to_record_coercion 0 (fun _ => none)
    ({ tags := some (.scalar "solo"),
       categories := some (.strs ["a", "b"]) } : Row) "solo" ["a", "b"]
  refine ⟨?_, h.2.2.2 rfl (by decide)⟩
  have h1 := h.1 rfl (by decide)
  simpa using h1

/-! ### C5 / C6 — the embedding gateway -/

/-- **C5**: `embed_text` is a total function (no exception reaches the
caller): it returns no vector when the text is whitespace-only, when no
provider is configured, and when the provider call raises; in every other
case it returns exactly the provider's vector. -/
theorem embed_text_fail_soft (cfg : EmbedConfig) (t : String) :
    (pyStrip t = "" → embed_text cfg t = none)
      ∧ (cfg.provider = none → embed_text cfg t = none)
      ∧ (∀ service err, cfg.provider = some service →
          service t = .error err → embed_text cfg t = none)
      ∧ (∀ service v, cfg.provider = some service → pyStrip t ≠ "" →
          service t = .ok v → embed_text cfg t = some v) := by
  refine ⟨fun h => by simp [embed_text, h], fun h => ?_, ?_, ?_⟩
  · by_cases ht : pyStrip t = "" <;> simp [embed_text, ht, h]
  · intro service err hs herr
    by_cases ht : pyStrip t = "" <;> simp [embed_text, ht, hs, herr]
  · intro service v hs ht hok
    simp [embed_text, ht, hs, hok]

/-- Witness for C5: a concrete succeeding provider on non-blank text. -/
theorem embed_text_fail_soft_witness :
    embed_text { provider := some (fun _ => .ok [1, 2]), dims := 2 } "hi"
      = some [1, 2] := by
  refine (embed_text_fail_soft _ "hi").2.2.2 _ [1, 2] rfl (by decide) rfl

/-- **C6**: with a configured (truthy) dimensionality `D`,
`_generate_embedding` returns no vector whenever the provider's vector has
length ≠ `D` (even though the provider call succeeded), and any vector it
does return has length exactly `D`. -/
theorem generate_embedding_dims (cfg : EmbedConfig) (t : String) (D : Nat)
    (hcfg : cfg.dims = D) (hD : D ≠ 0) :
    (∀ v, embed_text cfg t = some v → v.length ≠ D →
        _generate_embedding cfg t = none)
      ∧ (∀ v, _generate_embedding cfg t = some v → v.length = D) := by
  constructor
  · intro v hv hlen
    simp [_generate_embedding, hv, hcfg, hD, hlen]
  · intro v hv
    unfold _generate_embedding at hv
    cases he : embed_text cfg t with
    | none => rw [he] at hv; exact absurd hv (by simp)
    | some w =>
      rw [he] at hv
      by_cases hw : w.length = cfg.dims
      · have : some w = some v := by simpa [hw] using hv
        cases this
        rw [← hcfg]; exact hw
      · exfalso
        have : cfg.dims ≠ 0 ∧ w.length ≠ cfg.dims := ⟨hcfg ▸ hD, hw⟩
        simp [this] at hv

/-- Witness for C6: a provider returning a 3-vector under configured
dimensionality 2 yields no stored vector. -/
theorem generate_embedding_dims_witness :
    _generate_embedding { provider := some (fun _ => .ok [1, 2, 3]), dims := 2 }
      "hi" = none := by
  refine (generate_embedding_dims _ "hi" 2 rfl (by decide)).1 [1, 2, 3] ?_ (by decide)
  rfl

/-! ### C2 — semantic failure never aborts the search -/

/-- **C2**: for a non-empty query, when the semantic-search call raises, the
whole `fetch_resources` call still returns (the model is a total function):
the records are exactly the merge of the keyword-search results and the
notices are exactly the one summary derived from the exception. -/
theorem fetch_resources_semantic_error (q : String) (hq : q ≠ "")
    (exc : PyErr) (keywordResults : List ResourceRecord) (limit : Nat) :
    fetch_resources (some q) (.error exc) keywordResults limit
      = ((kwLoop limit [] keywordResults).map Prod.snd,
         [_summarise_semantic_error exc]) := by
  simp [fetch_resources, hq]

/-- Witness for C2: a concrete failing semantic call with one keyword hit;
the record comes back and exactly one notice is produced. -/
theorem fetch_resources_semantic_error_witness :
    (fetch_resources (some "ai") (.error { strForm := "boom" })
        [{ id := some 1, title := "A", url := none, notes := none,
           tags := [], categories := [], created_at := 0 }] 5).1
      = [{ id := some 1, title := "A", url := none, notes := none,
           tags := [], categories := [], created_at := 0 }]
      ∧ (fetch_resources (some "ai") (.error { strForm := "boom" })
          [{ id := some 1, title := "A", url := none, notes := none,
             tags := [], categories := [], created_at := 0 }] 5).2.length = 1 := by
  rw [fetch_resources_semantic_error "ai" (by decide) { strForm := "boom" } _ 5]
  exact ⟨by rfl, by rfl⟩

/-! ### C7 — the keyword expander matches its specified construction -/

/-- The candidate terms one raw keyword contributes, in generation order,
following the spec of `expand(keywords, query)`: the keyword itself; for
keywords (trimmed, lowercased) longer than 3 characters the derived forms
obtained by independently stripping trailing `"ies"` (replaced by `"y"`),
`"es"` and `"s"`; and for keywords containing a hyphen the space-joined
variant. -/
def keywordCandidates (raw : String) : List String :=
  let lowered := pyLower (pyStrip raw)
  [raw]
    ++ (if lowered.length > 3 then
          (if strEndsWith lowered "ies" then [lowered.dropRight 3 ++ "y"] else [])
            ++ (if strEndsWith lowered "es" then [lowered.dropRight 2] else [])
            ++ (if strEndsWith lowered "s" then [lowered.dropRight 1] else [])
        else [])
    ++ (if containsSub lowered "-" then [strReplace lowered "-" " "] else [])

/-- Insert one term into the ordered, duplicate-free output: trim and
lowercase it, drop it if empty or already present, otherwise append
(order of first insertion preserved, later duplicates dropped). -/
def addTermSpec (ordered : List String) (t : String) : List String :=
  let value := pyLower (pyStrip t)
  if value = "" then ordered
  else if value ∈ ordered then ordered
  else ordered ++ [value]

/-- The spec-side description of `_expand_keywords`: generate every
candidate term in order (each keyword's candidates, then the query) and
fold them into an ordered duplicate-free lowercase sequence. -/
def expandKeywordsSpec (keywords : List String) (query : Option String) :
    List String :=
  ((keywords.flatMap keywordCandidates) ++ query.toList).foldl addTermSpec []

theorem expandAdd_none (st : List String × List String) :
    expandAdd st none = st := rfl

theorem expandAdd_spec (st : List String × List String)
    (hInv : ∀ x, x ∈ st.1 ↔ x ∈ st.2) (t : String) :
    (expandAdd st (some t)).2 = addTermSpec st.2 t
      ∧ ∀ x, x ∈ (expandAdd st (some t)).1 ↔ x ∈ (expandAdd st (some t)).2 := by
  unfold expandAdd addTermSpec
  by_cases h0 : pyLower (pyStrip t) = ""
  · simpa [h0] using hInv
  · by_cases h1 : pyLower (pyStrip t) ∈ st.1
    · have h2 : pyLower (pyStrip t) ∈ st.2 := (hInv _).mp h1
      simpa [h0, h1, h2] using hInv
    · have h2 : pyLower (pyStrip t) ∉ st.2 := fun hx => h1 ((hInv _).mpr hx)
      dsimp only
      rw [if_neg h0, if_neg h0, if_neg h1, if_neg h2]
      refine ⟨rfl, fun x => ?_⟩
      simp only [List.mem_cons, List.mem_append, List.mem_singleton]
      rw [hInv x]
      tauto

theorem foldl_expandAdd_spec (ts : List String)
    (st : List String × List String)
    (hInv : ∀ x, x ∈ st.1 ↔ x ∈ st.2) :
    (ts.foldl (fun acc t => expandAdd acc (some t)) st).2
        = ts.foldl addTermSpec st.2
      ∧ ∀ x, x ∈ (ts.foldl (fun acc t => expandAdd acc (some t)) st).1
          ↔ x ∈ (ts.foldl (fun acc t => expandAdd acc (some t)) st).2 := by
  induction ts generalizing st with
  | nil => exact ⟨rfl, hInv⟩
  | cons t rest ih =>
    obtain ⟨h1, h2⟩ := expandAdd_spec st hInv t
    obtain ⟨ih1, ih2⟩ := ih (expandAdd st (some t)) h2
    refine ⟨?_, ih2⟩
    simpa [h1] using ih1

theorem expandStep_eq_foldl (st : List String × List String) (raw : String) :
    expandStep st raw
      = (keywordCandidates raw).foldl (fun acc t => expandAdd acc (some t)) st := by
  unfold expandStep keywordCandidates
  dsimp only
  split_ifs <;> simp [List.foldl_append]

theorem foldl_expandStep (kws : List String) (st : List String × List String) :
    kws.foldl expandStep st
      = (kws.flatMap keywordCandidates).foldl
          (fun acc t => expandAdd acc (some t)) st := by
  induction kws generalizing st with
  | nil => rfl
  | cons k rest ih =>
    rw [List.foldl_cons, List.flatMap_cons, List.foldl_append,
      ← expandStep_eq_foldl, ih]

theorem addTermSpec_nodup {acc : List String} (h : acc.Nodup) (t : String) :
    (addTermSpec acc t).Nodup := by
  unfold addTermSpec
  dsimp only
  split_ifs with h0 h1
  · exact h
  · exact h
  · simpa [List.nodup_append, h1] using h

theorem foldl_addTermSpec_nodup (ts : List String) {acc : List String}
    (h : acc.Nodup) : (ts.foldl addTermSpec acc).Nodup := by
  induction ts generalizing acc with
  | nil => exact h
  | cons t rest ih => exact ih (addTermSpec_nodup h t)

/-- **C7**: `_expand_keywords` produces exactly the ordered, duplicate-free
lowercase sequence described by the spec — each raw keyword (trimmed,
lowercased), its suffix-stripped derived forms for keywords longer than 3
characters, the space-joined variant for hyphenated keywords, and finally
the query, with the order of first insertion preserved — and the output
has no duplicates. -/
theorem expand_keywords_spec (keywords : List String) (query : Option String) :
    _expand_keywords keywords query = expandKeywordsSpec keywords query
      ∧ (_expand_keywords keywords query).Nodup := by
  have hbase : ∀ x : String, x ∈ (([], []) : List String × List String).1
      ↔ x ∈ (([], []) : List String × List String).2 := by simp
  have hfold := foldl_expandAdd_spec (keywords.flatMap keywordCandidates)
    ([], []) hbase
  have hmain : _expand_keywords keywords query
      = expandKeywordsSpec keywords query := by
    unfold _expand_keywords expandKeywordsSpec
    rw [foldl_expandStep]
    cases query with
    | none =>
      rw [expandAdd_none]
      simpa using hfold.1
    | some q =>
      have hadd := expandAdd_spec _ hfold.2 q
      rw [hadd.1, hfold.1]
      simp [List.foldl_append]
  refine ⟨hmain, ?_⟩
  rw [hmain]
  exact foldl_addTermSpec_nodup _ List.nodup_nil

/-! ### C3 — merge, dedup, truncation and ordering of hybrid search -/

theorem dictKeys_append (d e : RecDict) :
    dictKeys (d ++ e) = dictKeys d ++ dictKeys e := by
  simp [dictKeys]

theorem dictInsert_fresh (d : RecDict) (k : Option Nat) (v : ResourceRecord)
    (h : k ∉ dictKeys d) : dictInsert d k v = d ++ [(k, v)] := by
  simp [dictInsert, h]

theorem map_snd_id_eq_fst (d : RecDict)
    (h : ∀ pr ∈ d, pr.1 = pr.2.id) :
    (d.map Prod.snd).map ResourceRecord.id = d.map Prod.fst := by
  rw [List.map_map]
  exact List.map_congr_left (fun pr hpr => (h pr hpr).symm)

theorem kwLoop_split (limit : Nat) :
    ∀ (l : List ResourceRecord) (acc : RecDict),
      ∃ rest : RecDict,
        kwLoop limit acc l = acc ++ rest
          ∧ List.Sublist (rest.map Prod.snd) l
          ∧ (∀ pr ∈ rest, pr.1 = pr.2.id)
          ∧ (∀ pr ∈ rest, pr.1 ∉ dictKeys acc)
          ∧ (rest.map Prod.fst).Nodup := by
  intro l
  induction l with
  | nil => exact fun acc => ⟨[], by simp [kwLoop]⟩
  | cons r rs ih =>
    intro acc
    by_cases hmem : r.id ∈ dictKeys acc
    · have heq : kwLoop limit acc (r :: rs)
          = if limit ≤ acc.length then acc else kwLoop limit acc rs := by
        simp [kwLoop, hmem]
      by_cases hstop : limit ≤ acc.length
      · exact ⟨[], by simp [heq, hstop]⟩
      · obtain ⟨rest, h1, h2, h3, h4, h5⟩ := ih acc
        exact ⟨rest, by rw [heq, if_neg hstop]; exact h1,
          h2.trans (List.sublist_cons_self r rs), h3, h4, h5⟩
    · have heq : kwLoop limit acc (r :: rs)
          = if limit ≤ acc.length + 1 then acc ++ [(r.id, r)]
            else kwLoop limit (acc ++ [(r.id, r)]) rs := by
        simp [kwLoop, hmem]
      by_cases hstop : limit ≤ acc.length + 1
      · refine ⟨[(r.id, r)], by rw [heq, if_pos hstop], ?_, by simp,
          by simpa using hmem, by simp⟩
        simp only [List.map_cons, List.map_nil]
        exact List.Sublist.cons₂ r (List.nil_sublist rs)
      · obtain ⟨rest, h1, h2, h3, h4, h5⟩ := ih (acc ++ [(r.id, r)])
        refine ⟨(r.id, r) :: rest, ?_, ?_, ?_, ?_, ?_⟩
        · rw [heq, if_neg hstop, h1]
          simp
        · simpa using List.Sublist.cons₂ r h2
        · intro pr hpr
          rcases List.mem_cons.mp hpr with h | h
          · subst h; rfl
          · exact h3 pr h
        · intro pr hpr
          rcases List.mem_cons.mp hpr with h | h
          · subst h; exact hmem
          · intro hk
            exact h4 pr h (by rw [dictKeys_append]; exact List.mem_append_left _ hk)
        · rw [List.map_cons]
          refine List.nodup_cons.mpr ⟨?_, h5⟩
          intro hin
          obtain ⟨pr, hpr, hfst⟩ := List.mem_map.mp hin
          exact h4 pr hpr (by
            rw [dictKeys_append]
            exact List.mem_append_right _ (by simp [dictKeys, hfst]))

theorem kwLoop_length (limit : Nat) :
    ∀ (l : List ResourceRecord) (acc : RecDict),
      acc.length < limit → (kwLoop limit acc l).length ≤ limit := by
  intro l
  induction l with
  | nil => exact fun acc h => Nat.le_of_lt h
  | cons r rs ih =>
    intro acc hlt
    by_cases hmem : r.id ∈ dictKeys acc
    · have hstop : ¬ limit ≤ acc.length := Nat.not_le_of_lt hlt
      simpa [kwLoop, hmem, hstop] using ih acc hlt
    · by_cases hstop : limit ≤ acc.length + 1
      · have : (kwLoop limit acc (r :: rs)).length = acc.length + 1 := by
          simp [kwLoop, hmem, hstop]
        omega
      · have hlt2 : (acc ++ [(r.id, r)]).length < limit := by
          simp only [List.length_append, List.length_cons, List.length_nil]
          omega
        simpa [kwLoop, hmem, hstop] using ih (acc ++ [(r.id, r)]) hlt2

theorem semLoop_split (limit : Nat) :
    ∀ (l : List ResourceRecord) (acc : RecDict),
      (l.map ResourceRecord.id).Nodup → (∀ r ∈ l, r.id ∉ dictKeys acc) →
      acc.length < limit →
      ∃ rest : RecDict,
        (semLoop limit acc l).1 = acc ++ rest
          ∧ List.Sublist (rest.map Prod.snd) l
          ∧ (∀ pr ∈ rest, pr.1 = pr.2.id)
          ∧ (∀ pr ∈ rest, pr.1 ∉ dictKeys acc)
          ∧ (rest.map Prod.fst).Nodup
          ∧ ((semLoop limit acc l).2 = true →
              (semLoop limit acc l).1.length = limit)
          ∧ ((semLoop limit acc l).2 = false →
              (semLoop limit acc l).1.length < limit) := by
  intro l
  induction l with
  | nil =>
    intro acc _ _ hlt
    exact ⟨[], by simp [semLoop], by simp [semLoop],
      by simp, by simp, by simp, by simp [semLoop], by simpa [semLoop] using hlt⟩
  | cons r rs ih =>
    intro acc hnodup hdisj hlt
    have hfresh : r.id ∉ dictKeys acc := hdisj r (by simp)
    have hins : dictInsert acc r.id r = acc ++ [(r.id, r)] :=
      dictInsert_fresh acc r.id r hfresh
    have heq : semLoop limit acc (r :: rs)
        = if limit ≤ acc.length + 1 then (acc ++ [(r.id, r)], true)
          else semLoop limit (acc ++ [(r.id, r)]) rs := by
      simp [semLoop, hins]
    by_cases hstop : limit ≤ acc.length + 1
    · rw [heq, if_pos hstop]
      refine ⟨[(r.id, r)], by simp, ?_, by simp, by simpa using hfresh,
        by simp, ?_, by simp⟩
      · simp only [List.map_cons, List.map_nil]
        exact List.Sublist.cons₂ r (List.nil_sublist rs)
      · intro _
        simp only [List.length_append, List.length_cons, List.length_nil]
        omega
    · have hnodup2 : (rs.map ResourceRecord.id).Nodup :=
        (List.nodup_cons.mp (by simpa using hnodup)).2
      have hhead : r.id ∉ rs.map ResourceRecord.id :=
        (List.nodup_cons.mp (by simpa using hnodup)).1
      have hdisj2 : ∀ x ∈ rs, x.id ∉ dictKeys (acc ++ [(r.id, r)]) := by
        intro x hx
        rw [dictKeys_append]
        intro hk
        rcases List.mem_append.mp hk with h | h
        · exact hdisj x (by simp [hx]) h
        · have : x.id = r.id := by simpa [dictKeys] using h
          exact hhead (this ▸ List.mem_map_of_mem ResourceRecord.id hx)
      have hlt2 : (acc ++ [(r.id, r)]).length < limit := by
        simp only [List.length_append, List.length_cons, List.length_nil]
        omega
      obtain ⟨rest, h1, h2, h3, h4, h5, h6, h7⟩ := ih _ hnodup2 hdisj2 hlt2
      rw [heq, if_neg hstop]
      refine ⟨(r.id, r) :: rest, ?_, ?_, ?_, ?_, ?_, h6, h7⟩
      · rw [h1]; simp
      · simpa using List.Sublist.cons₂ r h2
      · intro pr hpr
        rcases List.mem_cons.mp hpr with h | h
        · subst h; rfl
        · exact h3 pr h
      · intro pr hpr
        rcases List.mem_cons.mp hpr with h | h
        · subst h; exact hfresh
        · intro hk
          exact h4 pr h (by rw [dictKeys_append]; exact List.mem_append_left _ hk)
      · rw [List.map_cons]
        refine List.nodup_cons.mpr ⟨?_, h5⟩
        intro hin
        obtain ⟨pr, hpr, hfst⟩ := List.mem_map.mp hin
        exact h4 pr hpr (by
          rw [dictKeys_append]
          exact List.mem_append_right _ (by simp [dictKeys, hfst]))

/-- **C3**: for a non-empty query and `limit ≥ 1`, with the semantic call
returning `sems` (each stored row appearing once) and the keyword call
returning `kws`: if the semantic phase reaches `limit` distinct identities
it short-circuits — the result does not depend on the keyword results and
consists of the semantic accumulator alone; in every case the result holds
at most `limit` records with pairwise-distinct identities, and equals the
semantic hits (a subsequence of `sems`, i.e. in relevance order) followed
by keyword-only hits (a subsequence of `kws`, i.e. in recency order, none
of whose identities occur among the semantic hits). -/
theorem fetch_resources_merge (q : String) (hq : q ≠ "") (limit : Nat)
    (hl : 1 ≤ limit) (sems kws : List ResourceRecord)
    (hs : (sems.map ResourceRecord.id).Nodup) :
    ((semLoop limit [] sems).2 = true →
        ∀ other, fetch_resources (some q) (.ok sems) other limit
          = ((semLoop limit [] sems).1.map Prod.snd, []))
      ∧ (fetch_resources (some q) (.ok sems) kws limit).1.length ≤ limit
      ∧ ((fetch_resources (some q) (.ok sems) kws limit).1.map
          ResourceRecord.id).Nodup
      ∧ (∃ rest : List ResourceRecord,
          (fetch_resources (some q) (.ok sems) kws limit).1
              = (semLoop limit [] sems).1.map Prod.snd ++ rest
            ∧ List.Sublist rest kws
            ∧ ∀ r ∈ rest, r.id ∉ dictKeys (semLoop limit [] sems).1)
      ∧ List.Sublist ((semLoop limit [] sems).1.map Prod.snd) sems := by
  have hzero : ([] : RecDict).length < limit := by simpa using hl
  obtain ⟨restS, hS1, hS2, hS3, hS4, hS5, hS6, hS7⟩ :=
    semLoop_split limit sems [] hs (by simp [dictKeys]) hzero
  have hP1 : (semLoop limit [] sems).1 = restS := by simpa using hS1
  have hentriesS : ∀ pr ∈ (semLoop limit [] sems).1, pr.1 = pr.2.id := by
    rw [hP1]; exact hS3
  have hfetch : ∀ other, fetch_resources (some q) (.ok sems) other limit
      = if (semLoop limit [] sems).2
        then ((semLoop limit [] sems).1.map Prod.snd, [])
        else ((kwLoop limit (semLoop limit [] sems).1 other).map Prod.snd, []) := by
    intro other
    simp [fetch_resources, hq]
  refine ⟨?_, ?_, ?_, ?_, ?_⟩
  · intro htrue other
    rw [hfetch other, htrue]
    simp
  · rw [hfetch kws]
    cases hphase : (semLoop limit [] sems).2 with
    | true =>
      have := hS6 hphase
      simp [this]
    | false =>
      have hlen := hS7 hphase
      simpa using kwLoop_length limit kws _ hlen
  · rw [hfetch kws]
    cases hphase : (semLoop limit [] sems).2 with
    | true =>
      rw [if_pos rfl]
      have hmap := map_snd_id_eq_fst _ hentriesS
      simp only
      rw [hmap, hP1]
      exact hS5
    | false =>
      rw [if_neg (by simp)]
      obtain ⟨restK, hK1, hK2, hK3, hK4, hK5⟩ :=
        kwLoop_split limit kws (semLoop limit [] sems).1
      have hentries : ∀ pr ∈ (semLoop limit [] sems).1 ++ restK, pr.1 = pr.2.id := by
        intro pr hpr
        rcases List.mem_append.mp hpr with h | h
        · exact hentriesS pr h
        · exact hK3 pr h
      simp only
      rw [hK1, map_snd_id_eq_fst _ hentries, List.map_append]
      rw [List.nodup_append]
      refine ⟨by rw [hP1]; exact hS5, hK5, ?_⟩
      intro k hk hk2
      obtain ⟨pr, hpr, rfl⟩ := List.mem_map.mp hk2
      exact hK4 pr hpr (by simpa [dictKeys] using hk)
  · rw [hfetch kws]
    cases hphase : (semLoop limit [] sems).2 with
    | true =>
      exact ⟨[], by simp, List.nil_sublist kws, by simp⟩
    | false =>
      rw [if_neg (by simp)]
      obtain ⟨restK, hK1, hK2, hK3, hK4, hK5⟩ :=
        kwLoop_split limit kws (semLoop limit [] sems).1
      refine ⟨restK.map Prod.snd, ?_, hK2, ?_⟩
      · simp only
        rw [hK1, List.map_append]
      · intro r hr
        obtain ⟨pr, hpr, rfl⟩ := List.mem_map.mp hr
        rw [← hK3 pr hpr]
        exact hK4 pr hpr
  · rw [hP1]
    exact hS2

/-- Witness for C3: a concrete two-record semantic result with limit 1
returns at most one record. -/
theorem fetch_resources_merge_witness :
    (fetch_resources (some "ai")
        (.ok [{ id := some 1, title := "A", url := none, notes := none,
                tags := [], categories := [], created_at := 0 },
              { id := some 2, title := "B", url := none, notes := none,
                tags := [], categories := [], created_at := 0 }])
        [] 1).1.length ≤ 1 := by
  exact (fetch_resources_merge "ai" (by decide) 1 (by decide)
    [{ id := some 1, title := "A", url := none, notes := none,
       tags := [], categories := [], created_at := 0 },
     { id := some 2, title := "B", url := none, notes := none,
       tags := [], categories := [], created_at := 0 }] []
    (by decide)).2.1

/-! ### C10 — the update path writes only url/notes/tags/categories/embedding -/

/-- The columns the update path may write. -/
def updatableKeys : List String :=
  ["url", "notes", "tags", "categories", "embeddings_vector"]

theorem buildUpdateFields_keys (p : ResourceInput) (ts cs : List String)
    (v : Option (List Rat)) :
    ∀ kv ∈ buildUpdateFields p ts cs v, kv.1 ∈ updatableKeys := by
  intro kv hkv
  simp only [buildUpdateFields, List.mem_append] at hkv
  rcases hkv with ((((h | h) | h) | h) | h)
  · cases hu : p.url with
    | none => rw [hu] at h; simp at h
    | some u =>
      rw [hu] at h
      by_cases he : u = ""
      · simp [he] at h
      · simp only [he, if_neg, ite_false, List.mem_singleton] at h
        simp [h, updatableKeys]
  · cases hn : p.notes with
    | none => rw [hn] at h; simp at h
    | some n =>
      rw [hn] at h
      by_cases he : n = ""
      · simp [he] at h
      · simp only [he, if_neg, ite_false, List.mem_singleton] at h
        simp [h, updatableKeys]
  · cases hts : ts with
    | nil => rw [hts] at h; simp at h
    | cons t _ =>
      rw [hts] at h
      simp only [List.mem_singleton] at h
      simp [h, updatableKeys]
  · cases hcs : cs with
    | nil => rw [hcs] at h; simp at h
    | cons c _ =>
      rw [hcs] at h
      simp only [List.mem_singleton] at h
      simp [h, updatableKeys]
  · cases hv : v with
    | none => rw [hv] at h; simp at h
    | some w =>
      rw [hv] at h
      simp only [List.mem_singleton] at h
      simp [h, updatableKeys]

theorem setField_frame (r : Row) (k : String) (v : FieldVal)
    (hk : k ∈ updatableKeys) :
    (setField r k v).title = r.title ∧ (setField r k v).id = r.id
      ∧ (setField r k v).created_at = r.created_at := by
  fin_cases hk <;> cases v <;> simp [setField]

theorem applyUpdate_frame (fields : List (String × FieldVal)) :
    ∀ (r : Row), (∀ kv ∈ fields, kv.1 ∈ updatableKeys) →
      (applyUpdate r fields).title = r.title
        ∧ (applyUpdate r fields).id = r.id
        ∧ (applyUpdate r fields).created_at = r.created_at := by
  induction fields with
  | nil => exact fun r _ => ⟨rfl, rfl, rfl⟩
  | cons kv rest ih =>
    intro r hkeys
    have hs := setField_frame r kv.1 kv.2 (hkeys kv (by simp))
    have hr := ih (setField r kv.1 kv.2)
      (fun kv2 h => hkeys kv2 (List.mem_cons_of_mem kv h))
    rw [applyUpdate, List.foldl_cons]
    exact ⟨hr.1.trans hs.1, hr.2.1.trans hs.2.1, hr.2.2.trans hs.2.2⟩

theorem forall₂_map_self {R : α → α → Prop} (l : List α) (f : α → α)
    (h : ∀ a ∈ l, R a (f a)) : List.Forall₂ R l (l.map f) := by
  induction l with
  | nil => exact List.Forall₂.nil
  | cons a t ih =>
    exact List.Forall₂.cons (h a (by simp))
      (ih (fun x hx => h x (List.mem_cons_of_mem a hx)))

/-- **C10**: on the update path of `add_resource` (a matching row exists)
every row of the store keeps its `title`, `id` and `created_at` — the
partial update only carries keys among
url/notes/tags/categories/embeddings_vector, so a payload matching an
existing row by url under a different title leaves the stored title
unchanged. -/
theorem add_resource_update_frame (cfg : EmbedConfig)
    (fromiso : String → Option Nat) (p : ResourceInput) (s : Store)
    (row : Row) (hfind : _find_existing_row p s.rows = some row) :
    List.Forall₂
        (fun a b => b.title = a.title ∧ b.id = a.id
          ∧ b.created_at = a.created_at)
        s.rows (add_resource cfg fromiso p s).2.rows
      ∧ ∀ op ∈ (add_resource cfg fromiso p s).2.log.drop s.log.length,
          ∀ iden fields, op = WriteOp.updateRow iden fields →
            ∀ kv ∈ fields, kv.1 ∈ updatableKeys := by
  have hrefl : List.Forall₂
      (fun a b => b.title = a.title ∧ b.id = a.id
        ∧ b.created_at = a.created_at) s.rows s.rows := by
    have := forall₂_map_self (R := fun (a b : Row) => b.title = a.title
      ∧ b.id = a.id ∧ b.created_at = a.created_at) s.rows id
      (fun a _ => ⟨rfl, rfl, rfl⟩)
    rw [List.map_id] at this
    exact this
  simp only [add_resource, hfind]
  by_cases hup : buildUpdateFields p (normalise_string_list p.tags)
      (normalise_string_list p.categories)
      (embeddingFor cfg
        (if _compose_embedding_text (row.title.getD "") row.notes row.url
            = _compose_embedding_text p.title p.notes p.url
         then none
         else _compose_embedding_text p.title p.notes p.url)) = []
  · rw [if_pos hup]
    refine ⟨hrefl, ?_⟩
    intro op hop
    rw [List.drop_length] at hop
    simp at hop
  · rw [if_neg hup]
    constructor
    · refine forall₂_map_self s.rows _ ?_
      intro a _
      by_cases hid : a.id = row.id
      · rw [if_pos hid]
        exact applyUpdate_frame _ a (buildUpdateFields_keys p _ _ _)
      · rw [if_neg hid]
        exact ⟨rfl, rfl, rfl⟩
    · intro op hop iden fields hop2 kv hkv
      simp only [List.drop_left, List.mem_singleton] at hop
      subst hop
      cases hop2
      exact buildUpdateFields_keys p _ _ _ kv hkv

/-- Witness for C10: a store holding a row titled `"Old"` matched by url by
a payload carrying title `"New"`; after the upsert every stored row keeps
its title, id and creation time. -/
theorem add_resource_update_frame_witness :
    List.Forall₂
        (fun a b => b.title = a.title ∧ b.id = a.id
          ∧ b.created_at = a.created_at)
        [({ id := some 4, title := some "Old", url := some "http://x",
            created_at := some (.dt 3) } : Row)]
        ((add_resource { provider := none, dims := 1536 } (fun _ => none)
            { title := "New", url := some "http://x" }
            { rows := [{ id := some 4, title := some "Old",
                         url := some "http://x", created_at := some (.dt 3) }],
              nextId := 5, time := 9, log := [] }).2.rows) := by
  exact (add_resource_update_frame { provider := none, dims := 1536 }
    (fun _ => none) { title := "New", url := some "http://x" }
    { rows := [{ id := some 4, title := some "Old", url := some "http://x",
                 created_at := some (.dt 3) }],
      nextId := 5, time := 9, log := [] }
    ({ id := some 4, title := some "Old", url := some "http://x",
       created_at := some (.dt 3) } : Row) (by rfl)).1

/-! ### C1 — storing the same payload twice -/

theorem foldl_mostRecent_some (l : List Row) :
    ∀ b : Row, ∃ c, l.foldl
      (fun acc r =>
        match acc with
        | none => some r
        | some b => if mostRecentRow.rowTick b < mostRecentRow.rowTick r
            then some r else acc)
      (some b) = some c := by
  induction l with
  | nil => exact fun b => ⟨b, rfl⟩
  | cons r rs ih =>
    intro b
    rw [List.foldl_cons]
    by_cases h : mostRecentRow.rowTick b < mostRecentRow.rowTick r
    · simpa [h] using ih r
    · simpa [h] using ih b

theorem mostRecentRow_eq_none_iff (l : List Row) :
    mostRecentRow l = none ↔ l = [] := by
  cases l with
  | nil => simp [mostRecentRow]
  | cons r rs =>
    simp only [mostRecentRow, List.foldl_cons]
    obtain ⟨c, hc⟩ := foldl_mostRecent_some rs r
    simp [hc]

theorem mostRecentRow_single (x : Row) : mostRecentRow [x] = some x := rfl

/-- After inserting a row that matches the payload's url/title into a store
in which the payload matched nothing, the lookup finds exactly that row. -/
theorem find_insert_fresh (p : ResourceInput) (rows : List Row) (x : Row)
    (hxu : x.url = p.url) (hxt : x.title = some p.title)
    (hnone : _find_existing_row p rows = none)
    (hT : optStrTruthy p.url = true ∨ p.title ≠ "") :
    _find_existing_row p (rows ++ [x]) = some x := by
  have byTitleCase : p.title ≠ "" →
      (if p.title = "" then none
       else mostRecentRow (rows.filter (fun r => r.title = some p.title)))
        = none →
      (if p.title = "" then none
       else mostRecentRow
        ((rows ++ [x]).filter (fun r => r.title = some p.title))) = some x := by
    intro ht hn
    rw [if_neg ht] at hn
    have hfil := (mostRecentRow_eq_none_iff _).mp hn
    rw [if_neg ht, List.filter_append, hfil]
    simp [hxt, mostRecentRow_single]
  cases hu : p.url with
  | none =>
    have ht : p.title ≠ "" := by
      rcases hT with h | h
      · rw [hu] at h; simp [optStrTruthy] at h
      · exact h
    simp only [_find_existing_row, hu] at hnone ⊢
    exact byTitleCase ht hnone
  | some u =>
    by_cases hue : u = ""
    · have ht : p.title ≠ "" := by
        rcases hT with h | h
        · rw [hu] at h; simp [optStrTruthy, hue] at h
        · exact h
      simp only [_find_existing_row, hu, hue, if_pos, ite_true] at hnone ⊢
      exact byTitleCase ht hnone
    · simp only [_find_existing_row, hu, hue, if_neg, ite_false] at hnone ⊢
      cases hmr : mostRecentRow (rows.filter (fun r => r.url = some u)) with
      | some r => rw [hmr] at hnone; simp at hnone
      | none =>
        have hfil := (mostRecentRow_eq_none_iff _).mp hmr
        rw [List.filter_append, hfil]
        have hxm : List.filter (fun r => r.url = some u) [x] = [x] := by
          simp [hxu, hu]
        rw [List.nil_append, hxm, mostRecentRow_single]

/-- `row_to_record` does not depend on the ambient time when the row carries
a native timestamp. -/
theorem row_to_record_now_irrelevant (now1 now2 : Nat)
    (fromiso : String → Option Nat) (row : Row) (t : Nat)
    (h : row.created_at = some (.dt t)) :
    row_to_record now1 fromiso row = row_to_record now2 fromiso row := by
  simp [row_to_record, _parse_datetime, h]

theorem buildUpdateFields_nil_iff (p : ResourceInput) (ts cs : List String) :
    buildUpdateFields p ts cs none = []
      ↔ optStrTruthy p.url = false ∧ optStrTruthy p.notes = false
          ∧ ts = [] ∧ cs = [] := by
  cases hu : p.url <;> cases hn : p.notes <;> cases hts : ts <;> cases hcs : cs <;>
    simp only [buildUpdateFields, optStrTruthy, hu, hn, hts, hcs] <;>
    (try split_ifs) <;> simp_all

theorem applyUpdate_fixed (r : Row) (fields : List (String × FieldVal))
    (h : ∀ kv ∈ fields, setField r kv.1 kv.2 = r) :
    applyUpdate r fields = r := by
  induction fields with
  | nil => rfl
  | cons kv rest ih =>
    rw [applyUpdate, List.foldl_cons, h kv (by simp)]
    exact ih (fun kv2 h2 => h kv2 (List.mem_cons_of_mem kv h2))

theorem setField_url (r : Row) (u : String) :
    setField r "url" (.str u) = { r with url := some u } := rfl

theorem setField_notes (r : Row) (n : String) :
    setField r "notes" (.str n) = { r with notes := some n } := rfl

theorem setField_tags (r : Row) (t : String) :
    setField r "tags" (.str t) = { r with tags := some (.scalar t) } := rfl

theorem setField_categories (r : Row) (c : String) :
    setField r "categories" (.str c)
      = { r with categories := some (.scalar c) } := rfl

theorem row_set_url (r : Row) (u : String) (h : r.url = some u) :
    ({ r with url := some u } : Row) = r := by
  cases r; simp_all

theorem row_set_notes (r : Row) (n : String) (h : r.notes = some n) :
    ({ r with notes := some n } : Row) = r := by
  cases r; simp_all

theorem row_set_tags (r : Row) (v : Option ScalarOrList) (h : r.tags = v) :
    ({ r with tags := v } : Row) = r := by
  cases r; simp_all

theorem row_set_categories (r : Row) (v : Option ScalarOrList)
    (h : r.categories = v) : ({ r with categories := v } : Row) = r := by
  cases r; simp_all

/-- Re-writing the freshly inserted row's own values is a no-op on the row. -/
theorem applyUpdate_newRow_self (p : ResourceInput) (ts cs : List String)
    (v : Option (List Rat)) (s : Store) :
    applyUpdate (newRowFor p ts cs v s) (buildUpdateFields p ts cs none)
      = newRowFor p ts cs v s := by
  apply applyUpdate_fixed
  intro kv hkv
  simp only [buildUpdateFields, List.mem_append] at hkv
  rcases hkv with ((((h | h) | h) | h) | h)
  · cases hu : p.url with
    | none => rw [hu] at h; simp at h
    | some u =>
      rw [hu] at h
      by_cases he : u = ""
      · simp [he] at h
      · simp only [he, if_neg, ite_false, List.mem_singleton] at h
        subst h
        rw [setField_url]
        exact row_set_url _ u (by simp [newRowFor, hu])
  · cases hn : p.notes with
    | none => rw [hn] at h; simp at h
    | some n =>
      rw [hn] at h
      by_cases he : n = ""
      · simp [he] at h
      · simp only [he, if_neg, ite_false, List.mem_singleton] at h
        subst h
        rw [setField_notes]
        exact row_set_notes _ n (by simp [newRowFor, hn])
  · cases hts : ts with
    | nil => rw [hts] at h; simp at h
    | cons t rest =>
      rw [hts] at h
      simp only [List.mem_singleton] at h
      subst h
      rw [setField_tags]
      exact row_set_tags _ _ (by simp [newRowFor, hts])
  · cases hcs : cs with
    | nil => rw [hcs] at h; simp at h
    | cons c rest =>
      rw [hcs] at h
      simp only [List.mem_singleton] at h
      subst h
      rw [setField_categories]
      exact row_set_categories _ _ (by simp [newRowFor, hcs])
  · simp at h

/-- The insert path of `add_resource`, as one equation. -/
theorem add_resource_insert_eq (cfg : EmbedConfig)
    (fromiso : String → Option Nat) (p : ResourceInput) (s : Store)
    (hfind : _find_existing_row p s.rows = none) :
    add_resource cfg fromiso p s
      = (row_to_record s.time fromiso
          (newRowFor p (normalise_string_list p.tags)
            (normalise_string_list p.categories)
            (embeddingFor cfg (_compose_embedding_text p.title p.notes p.url))
            s),
         { rows := s.rows ++ [newRowFor p (normalise_string_list p.tags)
             (normalise_string_list p.categories)
             (embeddingFor cfg
               (_compose_embedding_text p.title p.notes p.url)) s]
           nextId := s.nextId + 1
           time := s.time + 1
           log := s.log ++ [.insertRow (newRowFor p (normalise_string_list p.tags)
             (normalise_string_list p.categories)
             (embeddingFor cfg
               (_compose_embedding_text p.title p.notes p.url)) s)] }) := by
  simp only [add_resource, hfind]

/-- The update path of `add_resource` when the matched row's composed
embedding text coincides with the payload's (no embedding recomputation),
as one equation. -/
theorem add_resource_found_eq (cfg : EmbedConfig)
    (fromiso : String → Option Nat) (p : ResourceInput) (s : Store)
    (row : Row) (hfind : _find_existing_row p s.rows = some row)
    (hcur : _compose_embedding_text (row.title.getD "") row.notes row.url
        = _compose_embedding_text p.title p.notes p.url) :
    add_resource cfg fromiso p s
      = (if buildUpdateFields p (normalise_string_list p.tags)
            (normalise_string_list p.categories) none = []
         then (row_to_record s.time fromiso row, s)
         else
          (row_to_record s.time fromiso
            (applyUpdate row (buildUpdateFields p (normalise_string_list p.tags)
              (normalise_string_list p.categories) none)),
           { rows := s.rows.map (fun r =>
               if r.id = row.id
               then applyUpdate r (buildUpdateFields p
                 (normalise_string_list p.tags)
                 (normalise_string_list p.categories) none)
               else r)
             nextId := s.nextId
             time := s.time + 1
             log := s.log ++ [.updateRow row.id
               (buildUpdateFields p (normalise_string_list p.tags)
                 (normalise_string_list p.categories) none)] })) := by
  simp only [add_resource, hfind, hcur, eq_self_iff_true, if_true, embeddingFor]

/-- **C1 counterexample**: the claim says a second `add_resource` call with
the identical payload issues no update write; with payload
`{title := "T", url := "http://x"}` on an empty store the second call
*does* issue an update write (the code checks whether any field was
*supplied*, not whether any field *changed*) — even though the returned
record is identical. -/
theorem add_resource_second_call_writes :
    (updateWrites
        (((add_resource { provider := none, dims := 1536 } (fun _ => none)
            { title := "T", url := some "http://x" }
            (add_resource { provider := none, dims := 1536 } (fun _ => none)
              { title := "T", url := some "http://x" }
              { rows := [], nextId := 0, time := 0, log := [] }).2).2.log).drop
          (add_resource { provider := none, dims := 1536 } (fun _ => none)
            { title := "T", url := some "http://x" }
            { rows := [], nextId := 0, time := 0, log := [] }).2.log.length)
        ≠ [])
      ∧ (add_resource { provider := none, dims := 1536 } (fun _ => none)
          { title := "T", url := some "http://x" }
          (add_resource { provider := none, dims := 1536 } (fun _ => none)
            { title := "T", url := some "http://x" }
            { rows := [], nextId := 0, time := 0, log := [] }).2).1
        = (add_resource { provider := none, dims := 1536 } (fun _ => none)
            { title := "T", url := some "http://x" }
            { rows := [], nextId := 0, time := 0, log := [] }).1 := by
  constructor
  · decide
  · decide

/-- **C1 (amended)**: storing the same payload twice (payload with a
non-empty title or url; store initially holding no match; fresh-id store
invariant) returns an identical record and leaves the store's rows exactly
as after the first call; but the second call issues no update write *iff
the payload supplies none of url/notes/tags/categories* — when any such
field is supplied, a content-no-op update write is issued (the code tests
field presence, not field change). In particular, when the second call
finds the matching row and the payload carried only a title, it performs
no store write at all. -/
theorem add_resource_idempotent (cfg : EmbedConfig)
    (fromiso : String → Option Nat) (p : ResourceInput) (s : Store)
    (hT : optStrTruthy p.url = true ∨ p.title ≠ "")
    (hfind : _find_existing_row p s.rows = none)
    (hfresh : ∀ r ∈ s.rows, r.id ≠ some s.nextId) :
    (add_resource cfg fromiso p
          (add_resource cfg fromiso p s).2).1
        = (add_resource cfg fromiso p s).1
      ∧ (add_resource cfg fromiso p
          (add_resource cfg fromiso p s).2).2.rows
        = (add_resource cfg fromiso p s).2.rows
      ∧ (updateWrites
            ((add_resource cfg fromiso p
              (add_resource cfg fromiso p s).2).2.log.drop
              (add_resource cfg fromiso p s).2.log.length) = []
          ↔ optStrTruthy p.url = false ∧ optStrTruthy p.notes = false
              ∧ normalise_string_list p.tags = []
              ∧ normalise_string_list p.categories = []) := by
  have h1 := add_resource_insert_eq cfg fromiso p s hfind
  set nt := normalise_string_list p.tags with hnt
  set nc := normalise_string_list p.categories with hnc
  set v1 := embeddingFor cfg (_compose_embedding_text p.title p.notes p.url)
    with hv1
  set nr := newRowFor p nt nc v1 s with hnr
  have hnrrow : nr.created_at = some (.dt s.time) := by rw [hnr]; rfl
  have hfind2 : _find_existing_row p (add_resource cfg fromiso p s).2.rows
      = some nr := by
    rw [h1]
    exact find_insert_fresh p s.rows nr (by rw [hnr]; rfl) (by rw [hnr]; rfl)
      hfind hT
  have hcur : _compose_embedding_text (nr.title.getD "") nr.notes nr.url
      = _compose_embedding_text p.title p.notes p.url := by
    rw [hnr]; rfl
  have h2 := add_resource_found_eq cfg fromiso p
    (add_resource cfg fromiso p s).2 nr hfind2 hcur
  rw [← hnt, ← hnc] at h2
  by_cases hnil : buildUpdateFields p nt nc none = []
  · rw [if_pos hnil] at h2
    rw [h2]
    refine ⟨?_, rfl, ?_⟩
    · rw [h1]
      exact row_to_record_now_irrelevant _ _ fromiso nr s.time hnrrow
    · rw [List.drop_length]
      simp only [updateWrites, List.filter_nil, true_iff]
      exact (buildUpdateFields_nil_iff p nt nc).mp hnil
  · rw [if_neg hnil] at h2
    have hself : applyUpdate nr (buildUpdateFields p nt nc none) = nr := by
      rw [hnr]
      exact applyUpdate_newRow_self p nt nc v1 s
    have hrows : (add_resource cfg fromiso p s).2.rows.map (fun r =>
        if r.id = nr.id
        then applyUpdate r (buildUpdateFields p nt nc none) else r)
        = (add_resource cfg fromiso p s).2.rows := by
      rw [h1]
      simp only [List.map_append]
      have hid : nr.id = some s.nextId := by rw [hnr]; rfl
      have hleft : s.rows.map (fun r =>
          if r.id = nr.id
          then applyUpdate r (buildUpdateFields p nt nc none) else r)
          = s.rows := by
        rw [List.map_congr_left (g := fun r => r) ?_]
        · exact List.map_id s.rows
        · intro r hr
          rw [if_neg (by rw [hid]; exact hfresh r hr)]
      rw [hleft]
      simp [hself]
    rw [h2]
    refine ⟨?_, hrows, ?_⟩
    · rw [hself, h1]
      exact row_to_record_now_irrelevant _ _ fromiso nr s.time hnrrow
    · simp only [List.drop_left]
      constructor
      · intro habs
        exfalso
        simp [updateWrites] at habs
      · intro hrhs
        exact absurd ((buildUpdateFields_nil_iff p nt nc).mpr hrhs) hnil

/-- Witness for C1: the amended theorem applied to a title-only payload on
an empty store — the second call issues no update write (right-to-left of
the iff instantiated by evaluation), and returns the identical record. -/
theorem add_resource_idempotent_witness :
    (add_resource { provider := none, dims := 1536 } (fun _ => none)
          { title := "T" }
          (add_resource { provider := none, dims := 1536 } (fun _ => none)
            { title := "T" }
            { rows := [], nextId := 0, time := 0, log := [] }).2).1
        = (add_resource { provider := none, dims := 1536 } (fun _ => none)
            { title := "T" }
            { rows := [], nextId := 0, time := 0, log := [] }).1
      ∧ updateWrites
          ((add_resource { provider := none, dims := 1536 } (fun _ => none)
            { title := "T" }
            (add_resource { provider := none, dims := 1536 } (fun _ => none)
              { title := "T" }
              { rows := [], nextId := 0, time := 0, log := [] }).2).2.log.drop
            (add_resource { provider := none, dims := 1536 } (fun _ => none)
              { title := "T" }
              { rows := [], nextId := 0, time := 0, log := [] }).2.log.length)
          = [] := by
  have h := add_resource_idempotent { provider := none, dims := 1536 }
    (fun _ => none) { title := "T" }
    { rows := [], nextId := 0, time := 0, log := [] }
    (Or.inr (by decide)) (by rfl) (by intro r hr; simp at hr)
  exact ⟨h.1, h.2.2.mpr (by refine ⟨rfl, rfl, rfl, rfl⟩)⟩

end Assistant
